import Mathlib

/-!
Verification development for the Realify news retrieval-extraction-summarization
pipeline (`app.py`).  Text is modelled as `List Char`; each Python helper is
embedded as an executable Lean function that mirrors the source line by line.
Network calls, the HTML parser and the summarization engine are inputs to the
embedded functions (the adapter and engine behaviours are parameters), so every
control path of the Python code is represented explicitly.
-/

namespace Realify

/-- Whitespace test used throughout; models the character class that Python
`str.split()` / `str.strip()` treat as whitespace (ASCII fragment). -/
def isWs (c : Char) : Bool := c.isWhitespace

/-- Accumulator-style splitter: models Python `text.split()` (split on runs of
whitespace, dropping empty pieces).  `cur` holds the current word reversed. -/
def wordsAux : List Char → List Char → List (List Char)
  | [], cur => if cur = [] then [] else [cur.reverse]
  | c :: rest, cur =>
    if isWs c then
      if cur = [] then wordsAux rest [] else cur.reverse :: wordsAux rest []
    else
      wordsAux rest (c :: cur)

/-- Python `text.split()`. -/
def pyWords (s : List Char) : List (List Char) := wordsAux s []

/-- Python `sep.join(pieces)`. -/
def joinSep (sep : List Char) : List (List Char) → List Char
  | [] => []
  | [x] => x
  | x :: y :: r => x ++ sep ++ joinSep sep (y :: r)

/-- Python `" ".join(text.split())`: whitespace normalization as performed at
the top of `summarize_text` and `_chunk_text` (app.py lines 87 and 122). -/
def normalize (s : List Char) : List Char := joinSep [' '] (pyWords s)

/-- Python `s.lstrip()` (left half of `strip`). -/
def trimLeft (s : List Char) : List Char := s.dropWhile isWs

/-- Python `s.strip()`: drop whitespace from both ends. -/
def trim (s : List Char) : List Char := trimLeft ((trimLeft s.reverse).reverse)

/-- The sentence delimiter `". "` used by `_chunk_text`. -/
def sepDS : List Char := ['.', ' ']

/-- Python `text.split(". ")`: left-to-right non-overlapping split on the
two-character delimiter, keeping empty pieces. -/
def splitOn2 : List Char → List (List Char)
  | [] => [[]]
  | [c] => [[c]]
  | c :: d :: rest =>
    if c = '.' ∧ d = ' ' then
      [] :: splitOn2 rest
    else
      match splitOn2 (d :: rest) with
      | [] => [[c]]
      | x :: xs => (c :: x) :: xs

/-- The accumulation loop of `_chunk_text` (app.py lines 91-107): greedily packs
stripped sentences into chunks bounded by `m` characters, flushing the current
chunk when the tentative joined candidate would exceed the bound. -/
def chunkFold (m : Nat) : List (List Char) → List (List Char) → List (List Char) → List (List Char)
  | current, chunks, [] =>
    if current = [] then chunks else chunks ++ [trim (joinSep sepDS current)]
  | current, chunks, s :: rest =>
    if trim s = [] then
      chunkFold m current chunks rest
    else if (trim (joinSep sepDS (current ++ [trim s]))).length ≤ m then
      chunkFold m (current ++ [trim s]) chunks rest
    else if current = [] then
      chunkFold m [trim s] chunks rest
    else
      chunkFold m [trim s] (chunks ++ [trim (joinSep sepDS current)]) rest

/-- `_chunk_text(text, max_chars)` (app.py lines 83-109). -/
def chunk_text (text : List Char) (m : Nat) : List (List Char) :=
  let t := normalize text
  if t.length ≤ m then [t]
  else chunkFold m [] [] (splitOn2 t)

/-- The summarization engine: called with a text and the requested
`max_length` / `min_length`; a raised exception is an `error` value
(the code catches it, app.py lines 146-148 and 166-168). -/
def Engine : Type := List Char → Nat → Nat → Except (List Char) (List Char)

/-- Python `(t[:800] + "...") if len(t) > 800 else t` — the truncation
fallback used at app.py lines 130, 168 and 172. -/
def truncateWithEllipsis (t : List Char) : List Char :=
  if t.length > 800 then t.take 800 ++ ['.', '.', '.'] else t

/-- One iteration of the chunk loop (app.py lines 136-148): engine output is
stripped on success; on a per-chunk failure the first 300 characters of the
chunk are substituted. -/
def chunkPart (f : Engine) (c : List Char) : List Char :=
  match f c 120 40 with
  | Except.ok s => trim s
  | Except.error _ => c.take 300

/-- `combined` at app.py lines 150-151: partial summaries joined by single
spaces, then whitespace re-normalized. -/
def combinedOf (f : Engine) (text : List Char) : List Char :=
  normalize (joinSep [' '] ((chunk_text text 700).map (chunkPart f)))

/-- The engine-available branch of `summarize_text` (app.py lines 132-168). -/
def enginePath (f : Engine) (text : List Char) : List Char :=
  let combined := combinedOf f text
  if combined.length ≤ 500 then combined
  else
    match f combined 150 50 with
    | Except.ok s => trim s
    | Except.error _ => truncateWithEllipsis combined

/-- `summarize_text` after the short-text early return, dispatching on engine
availability (app.py lines 127-168). -/
def summarizeCore (summarizer : Option Engine) (text : List Char) : List Char :=
  match summarizer with
  | none => truncateWithEllipsis text
  | some f => enginePath f text

/-- `summarize_text(text)` (app.py lines 112-172) with the engine handle passed
explicitly (the value `get_summarizer()` would return). -/
def summarize_text (summarizer : Option Engine) (text0 : List Char) : List Char :=
  if text0 = [] then []
  else
    let text := normalize text0
    if text.length ≤ 400 then text
    else summarizeCore summarizer text

/-- `get_summarizer()` (app.py lines 73-80): the global `_summarizer` cell is
`none` while uninitialized; `load` is the outcome `load_models_with_caching`
would store (`none` when model loading fails, the function catches its own
errors).  Returns the handle together with the new cell state. -/
def get_summarizer (load : Option Engine) (st : Option (Option Engine)) :
    Option Engine × Option (Option Engine) :=
  match st with
  | some h => (h, st)
  | none => (load, some load)

/-- `summarize_text` with the lazy global engine cell threaded explicitly:
returns the produced string and the final state of the `_summarizer` cell. -/
def summarize_text_st (load : Option Engine) (st : Option (Option Engine))
    (text0 : List Char) : List Char × Option (Option Engine) :=
  if text0 = [] then ([], st)
  else
    let text := normalize text0
    if text.length ≤ 400 then (text, st)
    else
      let p := get_summarizer load st
      (summarizeCore p.1 text, p.2)

/-- An HTTP response as `requests.get` delivers it: status code and body. -/
structure HttpResponse where
  status : Nat
  text : List Char
deriving DecidableEq

/-- `fetch_html(url)` (app.py lines 245-257), as a function of the transport
outcome for the URL: a raised transport error is the `error` case (caught and
logged), a delivered response yields its body exactly when the status is 200;
everything else surfaces as `none`. -/
def fetch_html (resp : Except (List Char) HttpResponse) : Option (List Char) :=
  match resp with
  | Except.error _ => none
  | Except.ok r => if r.status = 200 then some r.text else none

/-- The closed set of news sources. -/
inductive Source
  | geo
  | bbc
  | ary
  | samaa
  | dawn
deriving DecidableEq, Repr

/-- The string identity of a source, as stored in the `source` column. -/
def sourceName : Source → List Char
  | Source.geo => "geo".toList
  | Source.bbc => "bbc".toList
  | Source.ary => "ary".toList
  | Source.samaa => "samaa".toList
  | Source.dawn => "dawn".toList

/-- The dictionary an adapter returns for one article (app.py lines 407-413
and analogues): the NormalizedRecord of the spec. -/
structure Rec where
  source : Source
  url : List Char
  picture : Option (List Char)
  heading : List Char
  blog : List Char
deriving DecidableEq

/-- The sentinel heading. -/
def noHeading : List Char := "No Heading".toList

/-- What the Geo selectors yield from a parsed document
(`_process_geo_article`, app.py lines 350-413): `headingH` is the text of the
`h1` inside `div.heading_H` when present, `anyH1` the first `h1` anywhere,
`contentImg` the first non-empty `img src` inside `div.content-area`,
`ogImage` the non-empty `og:image` meta content, `contentText` the
space-joined paragraph texts of `div.content-area` (empty when the container
is missing or empty) and `fallbackText` likewise for
`article` / `div.story-detail`. -/
structure GeoDoc where
  headingH : Option (List Char)
  anyH1 : Option (List Char)
  contentImg : Option (List Char)
  ogImage : Option (List Char)
  contentText : List Char
  fallbackText : List Char
deriving DecidableEq

/-- The body text `_process_geo_article` ends up with (lines 383-399). -/
def geoBody (d : GeoDoc) : List Char :=
  if d.contentText = [] then d.fallbackText else d.contentText

/-- `_process_geo_article(url)` (app.py lines 350-413), as a function of the
fetch outcome (parsed into the selector yields). -/
def process_geo_article (eng : Option Engine) (url : List Char)
    (doc : Option GeoDoc) : Option Rec :=
  match doc with
  | none => none
  | some d =>
    let heading0 := d.headingH.getD noHeading
    let heading := if heading0 = noHeading then d.anyH1.getD noHeading else heading0
    let image :=
      match d.contentImg with
      | some i => some i
      | none => d.ogImage
    let text := geoBody d
    if text = [] ∨ text.length < 50 then none
    else
      some { source := Source.geo, url := url, picture := image,
             heading := heading, blog := summarize_text eng text }

/-- What the BBC / ARY / Samaa / Dawn selectors yield from a parsed document:
these four extractors share one shape (app.py lines 466-510, 539-586, 646-693,
729-776): heading from the first `h1`, image from the `og:image` meta,
`primaryText` the space-joined paragraph texts of the source-specific
container(s) and `fallbackText` the space-joined texts of all paragraphs. -/
structure StdDoc where
  anyH1 : Option (List Char)
  ogImage : Option (List Char)
  primaryText : List Char
  fallbackText : List Char
deriving DecidableEq

/-- The body text the shared extractor shape ends up with. -/
def stdBody (d : StdDoc) : List Char :=
  if d.primaryText = [] then d.fallbackText else d.primaryText

/-- `_process_bbc_article` / `_process_ary_article` / `_process_samaa_article`
/ `_process_dawn_article`, as a function of the fetch outcome. -/
def process_std_article (src : Source) (eng : Option Engine) (url : List Char)
    (doc : Option StdDoc) : Option Rec :=
  match doc with
  | none => none
  | some d =>
    let heading := d.anyH1.getD noHeading
    let text := stdBody d
    if text = [] ∨ text.length < 50 then none
    else
      some { source := src, url := url, picture := d.ogImage,
             heading := heading, blog := summarize_text eng text }

/-- One stored row of `headlinesData` (app.py lines 190-199); the position in
the row list models the persistence timestamp (later = more recent). -/
structure Row where
  source : List Char
  url : List Char
  picture : Option (List Char)
  heading : Option (List Char)
  blog : Option (List Char)
deriving DecidableEq

/-- The dictionary handed to `save_headline`: `url = none` models a dict with
no `"url"` key (or the empty dict); the other fields are `dict.get` results. -/
structure Headline where
  url : Option (List Char)
  source : Option (List Char)
  picture : Option (List Char)
  heading : Option (List Char)
  blog : Option (List Char)
deriving DecidableEq

/-- The row `save_headline` inserts for a headline with url `u`. -/
def mkRow (h : Headline) (u : List Char) : Row :=
  { url := u, source := h.source.getD ("unknown".toList),
    picture := h.picture, heading := h.heading, blog := h.blog }

/-- `DatabaseManager.save_headline` (app.py lines 204-226): a no-op without a
`"url"` key; otherwise `INSERT OR REPLACE` on the UNIQUE `url` column, which
deletes any existing row with that url and appends a fresh row (fresh
`CURRENT_TIMESTAMP`, hence appended at the recent end). -/
def save_headline (db : List Row) (h : Headline) : List Row :=
  match h.url with
  | none => db
  | some u => db.filter (fun r => ¬ (r.url = u)) ++ [mkRow h u]

/-- The dict an adapter result (`Rec`) presents to `save_headline`. -/
def recHeadline (r : Rec) : Headline :=
  { url := some r.url, source := some (sourceName r.source),
    picture := r.picture, heading := some r.heading, blog := some r.blog }

/-- The save loop of the `/search` endpoint (app.py lines 912-913). -/
def saveAll (db : List Row) (rs : List Rec) : List Row :=
  rs.foldl (fun d r => save_headline d (recHeadline r)) db

/-- `MAX_ARTICLES` (app.py line 27). -/
def MAX_ARTICLES : Int := 50

/-- The digit part of Python `int(s)`: one or more ASCII digits with single
underscores allowed between digits. -/
def pyIntDigits : List Char → Option Nat
  | [] => none
  | c :: rest =>
    if c.isDigit then pyIntDigitsGo (c.toNat - 48) rest else none
where
  pyIntDigitsGo (acc : Nat) : List Char → Option Nat
    | [] => some acc
    | '_' :: d :: rest =>
      if d.isDigit then pyIntDigitsGo (acc * 10 + (d.toNat - 48)) rest else none
    | ['_'] => none
    | d :: rest =>
      if d.isDigit then pyIntDigitsGo (acc * 10 + (d.toNat - 48)) rest else none

/-- Python `int(s)` on a string: surrounding whitespace stripped, optional
sign, then digits; `none` models a raised `ValueError`.  (Non-ASCII numerals
are not modelled.) -/
def pyInt (s : List Char) : Option Int :=
  match trim s with
  | '+' :: rest => (pyIntDigits rest).map Int.ofNat
  | '-' :: rest => (pyIntDigits rest).map (fun n => -(n : Int))
  | t => (pyIntDigits t).map Int.ofNat

/-- The limit computation of the `/news` endpoint (app.py lines 867-871):
`limit = int(limit_param) if limit_param else MAX_ARTICLES`, with a raised
`ValueError` caught and replaced by `MAX_ARTICLES`. -/
def get_news_limit (limitParam : Option (List Char)) : Int :=
  match limitParam with
  | none => MAX_ARTICLES
  | some s =>
    if s = [] then MAX_ARTICLES
    else
      match pyInt s with
      | some n => n
      | none => MAX_ARTICLES

/-- The five adapters' `search_*_news` behaviours for a given query: an
`error` value models the (unlikely but possible) case that the adapter body
raises instead of returning a list. -/
structure Adapters where
  geo : List Char → Except (List Char) (List Rec)
  bbc : List Char → Except (List Char) (List Rec)
  ary : List Char → Except (List Char) (List Rec)
  samaa : List Char → Except (List Char) (List Rec)
  dawn : List Char → Except (List Char) (List Rec)

/-- `NewsScraper.search_all_sources` (app.py lines 816-843): the five adapter
searches run sequentially with no try/except between them, so a raised
exception propagates immediately.  The second component records which
adapters were actually invoked, in order. -/
def search_all_sources (A : Adapters) (q : List Char) :
    Except (List Char) (List Rec) × List Source :=
  match A.geo q with
  | Except.error e => (Except.error e, [Source.geo])
  | Except.ok g =>
    match A.bbc q with
    | Except.error e => (Except.error e, [Source.geo, Source.bbc])
    | Except.ok b =>
      match A.ary q with
      | Except.error e => (Except.error e, [Source.geo, Source.bbc, Source.ary])
      | Except.ok a =>
        match A.samaa q with
        | Except.error e =>
          (Except.error e, [Source.geo, Source.bbc, Source.ary, Source.samaa])
        | Except.ok s =>
          match A.dawn q with
          | Except.error e =>
            (Except.error e,
             [Source.geo, Source.bbc, Source.ary, Source.samaa, Source.dawn])
          | Except.ok d =>
            (Except.ok (g ++ b ++ a ++ s ++ d),
             [Source.geo, Source.bbc, Source.ary, Source.samaa, Source.dawn])

/-- Python `s.lower()`. -/
def lowerStr (s : List Char) : List Char := s.map Char.toLower

/-- The query parameters of a `/search` request (`none` = parameter absent). -/
structure SearchReq where
  query : Option (List Char)
  source : Option (List Char)

/-- The `/search` endpoint `search_news` (app.py lines 877-926), returning the
HTTP status, the list of adapters invoked, and the database after the request:
empty/missing query is a 400 before any adapter runs; the source selector is
lowercased and dispatched over the five known identities and `all`, any other
value is a 400 with no adapter invoked; a propagated adapter exception is
caught and answered with a 500, leaving the database unchanged; on success the
results are upserted and a 200 returned. -/
def search_news (A : Adapters) (db : List Row) (req : SearchReq) :
    Nat × List Source × List Row :=
  let query := trim (req.query.getD [])
  let source := lowerStr (req.source.getD ("all".toList))
  if query = [] then (400, [], db)
  else if source = "geo".toList then
    match A.geo query with
    | Except.ok rs => (200, [Source.geo], saveAll db rs)
    | Except.error _ => (500, [Source.geo], db)
  else if source = "bbc".toList then
    match A.bbc query with
    | Except.ok rs => (200, [Source.bbc], saveAll db rs)
    | Except.error _ => (500, [Source.bbc], db)
  else if source = "ary".toList then
    match A.ary query with
    | Except.ok rs => (200, [Source.ary], saveAll db rs)
    | Except.error _ => (500, [Source.ary], db)
  else if source = "samaa".toList then
    match A.samaa query with
    | Except.ok rs => (200, [Source.samaa], saveAll db rs)
    | Except.error _ => (500, [Source.samaa], db)
  else if source = "dawn".toList then
    match A.dawn query with
    | Except.ok rs => (200, [Source.dawn], saveAll db rs)
    | Except.error _ => (500, [Source.dawn], db)
  else if source = "all".toList then
    match search_all_sources A query with
    | (Except.ok rs, tr) => (200, tr, saveAll db rs)
    | (Except.error _, tr) => (500, tr, db)
  else (400, [], db)

/-- The six recognized values of the (lowercased) source selector. -/
def knownSelectors : List (List Char) :=
  ["geo".toList, "bbc".toList, "ary".toList, "samaa".toList, "dawn".toList,
   "all".toList]

/-- A piece of text that begins with a non-whitespace character. -/
def startsNonWs : List Char → Bool
  | [] => false
  | c :: _ => !isWs c

/-- A piece of text containing at least one non-whitespace character. -/
def hasNonWs (l : List Char) : Prop := ∃ c ∈ l, isWs c = false

lemma trimLeft_eq_self {l : List Char} (h : startsNonWs l = true) :
    trimLeft l = l := by
  cases l with
  | nil => rfl
  | cons c r =>
    simp only [startsNonWs, Bool.not_eq_true'] at h
    simp [trimLeft, List.dropWhile_cons, h]

lemma startsNonWs_trimLeft {l : List Char} (h : trimLeft l ≠ []) :
    startsNonWs (trimLeft l) = true := by
  induction l with
  | nil => exact absurd rfl h
  | cons c r ih =>
    by_cases hc : isWs c
    · rw [trimLeft, List.dropWhile_cons, if_pos hc] at h ⊢
      exact ih h
    · rw [trimLeft, List.dropWhile_cons, if_neg hc]
      simp [startsNonWs, hc]

lemma trimLeft_getLast? {l : List Char} (h : trimLeft l ≠ []) :
    (trimLeft l).getLast? = l.getLast? := by
  induction l with
  | nil => exact absurd rfl h
  | cons c r ih =>
    by_cases hc : isWs c
    · have h' : trimLeft r ≠ [] := by
        intro hq
        apply h
        rw [trimLeft, List.dropWhile_cons, if_pos hc]
        exact hq
      rcases r with _ | ⟨d, r'⟩
      · exact absurd rfl h'
      · rw [trimLeft, List.dropWhile_cons, if_pos hc]
        rw [show List.dropWhile isWs (d :: r') = trimLeft (d :: r') from rfl,
          ih h']
        exact (List.getLast?_cons_cons).symm
    · rw [trimLeft, List.dropWhile_cons, if_neg hc]

lemma mem_trimLeft_of_not_ws {c : Char} {l : List Char} (hc : c ∈ l)
    (hw : isWs c = false) : c ∈ trimLeft l := by
  induction l with
  | nil => cases hc
  | cons d r ih =>
    by_cases hd : isWs d
    · rw [trimLeft, List.dropWhile_cons, if_pos hd]
      rcases List.mem_cons.mp hc with h | h
      · subst h; rw [hd] at hw; cases hw
      · exact ih h
    · rw [trimLeft, List.dropWhile_cons, if_neg hd]
      exact hc

lemma mem_of_mem_trimLeft {c : Char} {l : List Char} (h : c ∈ trimLeft l) :
    c ∈ l :=
  (List.dropWhile_sublist isWs).subset h

lemma mem_of_mem_trim {c : Char} {l : List Char} (h : c ∈ trim l) : c ∈ l := by
  have h1 := mem_of_mem_trimLeft h
  rw [List.mem_reverse] at h1
  have h2 := mem_of_mem_trimLeft h1
  rwa [List.mem_reverse] at h2

lemma trim_eq_nil_iff {l : List Char} :
    trim l = [] ↔ ∀ c ∈ l, isWs c = true := by
  constructor
  · intro h c hc
    by_contra hw
    have hw' : isWs c = false := by
      cases hq : isWs c
      · rfl
      · exact absurd hq hw
    have hm : c ∈ trim l := by
      apply mem_trimLeft_of_not_ws _ hw'
      rw [List.mem_reverse]
      apply mem_trimLeft_of_not_ws _ hw'
      rw [List.mem_reverse]
      exact hc
    rw [h] at hm
    cases hm
  · intro h
    rw [trim, trimLeft, List.dropWhile_eq_nil_iff]
    intro c hc
    rw [List.mem_reverse] at hc
    have := mem_of_mem_trimLeft hc
    rw [List.mem_reverse] at this
    exact h c this

lemma trim_ne_of_hasNonWs {l : List Char} (h : hasNonWs l) : trim l ≠ [] := by
  intro he
  obtain ⟨c, hc, hw⟩ := h
  rw [trim_eq_nil_iff] at he
  rw [he c hc] at hw
  cases hw

lemma hasNonWs_of_trim_ne {l : List Char} (h : trim l ≠ []) : hasNonWs l := by
  by_contra hn
  apply h
  rw [trim_eq_nil_iff]
  intro c hc
  cases hq : isWs c
  · exact absurd ⟨c, hc, hq⟩ hn
  · rfl

lemma startsNonWs_trim {l : List Char} (h : trim l ≠ []) :
    startsNonWs (trim l) = true :=
  startsNonWs_trimLeft h

lemma trim_getLast?_nonWs {l : List Char} (h : trim l ≠ []) :
    ∃ c, (trim l).getLast? = some c ∧ isWs c = false := by
  have hw : (trimLeft l.reverse).reverse ≠ [] := by
    intro hq
    apply h
    rw [trim, hq]
    rfl
  rw [trim, trimLeft_getLast? h, List.getLast?_reverse]
  have hv : trimLeft l.reverse ≠ [] := by
    intro hq
    apply hw
    rw [hq]
    rfl
  have hs := startsNonWs_trimLeft hv
  rcases hu : trimLeft l.reverse with _ | ⟨c, r⟩
  · exact absurd hu hv
  · rw [hu] at hs
    simp only [startsNonWs, Bool.not_eq_true'] at hs
    exact ⟨c, rfl, hs⟩

lemma startsNonWs_head_mem {l : List Char} (h : startsNonWs l = true) :
    ∃ c ∈ l, isWs c = false := by
  cases l with
  | nil => cases h
  | cons c r =>
    simp only [startsNonWs, Bool.not_eq_true'] at h
    exact ⟨c, List.mem_cons_self c r, h⟩

lemma trim_idem {l : List Char} : trim (trim l) = trim l := by
  by_cases h : trim l = []
  · rw [h]; rfl
  · have hstart := startsNonWs_trim h
    obtain ⟨c, hlast, hcw⟩ := trim_getLast?_nonWs h
    have h1 : trimLeft (trim l).reverse = (trim l).reverse := by
      apply trimLeft_eq_self
      rcases hq : (trim l).reverse with _ | ⟨d, r⟩
      · rw [List.reverse_eq_nil_iff] at hq
        exact absurd hq h
      · have : (trim l).reverse.head? = some d := by rw [hq]; rfl
        rw [List.head?_reverse, hlast] at this
        injection this with hd
        subst hd
        simp [startsNonWs, hcw]
    rw [trim, h1, List.reverse_reverse]
    exact trimLeft_eq_self hstart

lemma joinSep_cons₂ (sep x y : List Char) (r : List (List Char)) :
    joinSep sep (x :: y :: r) = x ++ sep ++ joinSep sep (y :: r) := rfl

lemma mem_joinSep {sep : List Char} {c : Char} {w : List Char} :
    ∀ {l : List (List Char)}, w ∈ l → c ∈ w → c ∈ joinSep sep l := by
  intro l
  induction l with
  | nil => intro hw; cases hw
  | cons x r ih =>
    intro hw hc
    rcases r with _ | ⟨y, r'⟩
    · rcases List.mem_cons.mp hw with h | h
      · subst h; exact hc
      · cases h
    · rw [joinSep_cons₂]
      rcases List.mem_cons.mp hw with h | h
      · subst h
        exact List.mem_append_left _ (List.mem_append_left _ hc)
      · exact List.mem_append_right _ (ih h hc)

lemma joinSep_ne_nil {sep x : List Char} {r : List (List Char)}
    (hx : x ≠ []) : joinSep sep (x :: r) ≠ [] := by
  rcases r with _ | ⟨y, r'⟩
  · exact hx
  · rw [joinSep_cons₂]
    simp [hx]

lemma joinSep_head? {sep x : List Char} {r : List (List Char)}
    (hx : x ≠ []) : (joinSep sep (x :: r)).head? = x.head? := by
  rcases r with _ | ⟨y, r'⟩
  · rfl
  · rw [joinSep_cons₂, List.append_assoc, List.head?_append_of_ne_nil _ hx]

lemma joinSep_getLast? {sep : List Char} :
    ∀ {l : List (List Char)} {w : List Char}, l.getLast? = some w → w ≠ [] →
      (joinSep sep l).getLast? = w.getLast? := by
  intro l
  induction l with
  | nil => intro w hl; cases hl
  | cons x r ih =>
    intro w hl hw
    rcases r with _ | ⟨y, r'⟩
    · rw [List.getLast?_singleton] at hl
      injection hl with hl
      subst hl
      rfl
    · rw [List.getLast?_cons_cons] at hl
      have hjoin := ih hl hw
      obtain ⟨a, ha⟩ : ∃ a, w.getLast? = some a := by
        rcases hg : w.getLast? with _ | a
        · rw [List.getLast?_eq_none_iff] at hg
          exact absurd hg hw
        · exact ⟨a, rfl⟩
      rw [joinSep_cons₂, List.getLast?_append, hjoin, ha]
      simp

lemma wordsAux_words {s : List Char} :
    ∀ {cur : List Char}, (∀ c ∈ cur, isWs c = false) →
      ∀ w ∈ wordsAux s cur, w ≠ [] ∧ ∀ c ∈ w, isWs c = false := by
  induction s with
  | nil =>
    intro cur hcur w hw
    by_cases hc : cur = []
    · rw [wordsAux, if_pos hc] at hw
      cases hw
    · rw [wordsAux, if_neg hc] at hw
      rcases List.mem_cons.mp hw with h | h
      · subst h
        constructor
        · simpa using hc
        · intro c hcm
          exact hcur c (List.mem_reverse.mp hcm)
      · cases h
  | cons c rest ih =>
    intro cur hcur w hw
    by_cases hc : isWs c
    · by_cases hcn : cur = []
      · rw [wordsAux, if_pos hc, if_pos hcn] at hw
        exact ih (by intro d hd; cases hd) w hw
      · rw [wordsAux, if_pos hc, if_neg hcn] at hw
        rcases List.mem_cons.mp hw with h | h
        · subst h
          constructor
          · simpa using hcn
          · intro d hdm
            exact hcur d (List.mem_reverse.mp hdm)
        · exact ih (by intro d hd; cases hd) w h
    · rw [wordsAux, if_neg hc] at hw
      refine ih ?_ w hw
      intro d hd
      rcases List.mem_cons.mp hd with h | h
      · subst h
        simpa using hc
      · exact hcur d h

lemma wordsAux_ne {s : List Char} :
    ∀ {cur : List Char}, (cur ≠ [] ∨ hasNonWs s) → wordsAux s cur ≠ [] := by
  induction s with
  | nil =>
    intro cur h
    rcases h with h | h
    · rw [wordsAux, if_neg h]
      simp
    · obtain ⟨c, hc, _⟩ := h
      cases hc
  | cons c rest ih =>
    intro cur h
    by_cases hc : isWs c
    · by_cases hcn : cur = []
      · rw [wordsAux, if_pos hc, if_pos hcn]
        apply ih
        right
        rcases h with h | ⟨d, hd, hw⟩
        · exact absurd hcn h
        · rcases List.mem_cons.mp hd with hq | hq
          · subst hq
            rw [hc] at hw
            cases hw
          · exact ⟨d, hq, hw⟩
      · rw [wordsAux, if_pos hc, if_neg hcn]
        simp
    · rw [wordsAux, if_neg hc]
      apply ih
      left
      simp

lemma normalize_nil : normalize [] = [] := rfl

lemma normalize_ne_of_hasNonWs {s : List Char} (h : hasNonWs s) :
    normalize s ≠ [] := by
  have hne := @wordsAux_ne s [] (Or.inr h)
  have hws := @wordsAux_words s [] (by intro d hd; cases hd)
  rcases hq : pyWords s with _ | ⟨w, r⟩
  · exact absurd hq hne
  · have hwmem : w ∈ wordsAux s [] := by
      rw [show wordsAux s [] = pyWords s from rfl, hq]
      simp
    have hw : w ≠ [] := (hws w hwmem).1
    rw [normalize, hq]
    exact joinSep_ne_nil hw

lemma getLast?_mem {α : Type} {l : List α} {a : α} (h : l.getLast? = some a) :
    a ∈ l := by
  obtain ⟨hne, hx⟩ :=
    List.mem_getLast?_eq_getLast (l := l) (x := a) (Option.mem_def.mpr h)
  rw [hx]
  exact List.getLast_mem hne

lemma startsNonWs_normalize {s : List Char} (h : normalize s ≠ []) :
    startsNonWs (normalize s) = true := by
  rcases hq : pyWords s with _ | ⟨w, r⟩
  · rw [normalize, hq] at h
    exact absurd rfl h
  · have hws := @wordsAux_words s [] (by intro d hd; cases hd)
    have hw := hws w (by
      rw [show wordsAux s [] = pyWords s from rfl, hq]
      simp)
    rw [normalize, hq]
    have hh := @joinSep_head? [' '] w r hw.1
    rcases hj : joinSep [' '] (w :: r) with _ | ⟨d, j'⟩
    · exact absurd hj (joinSep_ne_nil hw.1)
    · rw [hj] at hh
      rcases hx : w with _ | ⟨c, w'⟩
    -- w nonempty
      · exact absurd hx hw.1
      · rw [hx] at hh
        have hdc : d = c := by
          simpa using hh
        have hdw : isWs d = false := by
          rw [hdc]
          exact hw.2 c (by rw [hx]; simp)
        simp [startsNonWs, hdw]

lemma hasNonWs_normalize {s : List Char} (h : normalize s ≠ []) :
    hasNonWs (normalize s) := by
  have hs := startsNonWs_normalize h
  obtain ⟨c, hc, hw⟩ := startsNonWs_head_mem hs
  exact ⟨c, hc, hw⟩

lemma normalize_getLast?_nonWs {s : List Char} (h : normalize s ≠ []) :
    ∃ c, (normalize s).getLast? = some c ∧ isWs c = false := by
  rcases hq : pyWords s with _ | ⟨w, r⟩
  · rw [normalize, hq] at h
    exact absurd rfl h
  · have hws := @wordsAux_words s [] (by intro d hd; cases hd)
    obtain ⟨v, hv⟩ : ∃ v, (w :: r).getLast? = some v := by
      rcases hg : (w :: r).getLast? with _ | v
      · rw [List.getLast?_eq_none_iff] at hg
        cases hg
      · exact ⟨v, rfl⟩
    have hvmem : v ∈ w :: r := getLast?_mem hv
    have hvw := hws v (by
      rw [show wordsAux s [] = pyWords s from rfl, hq]
      exact hvmem)
    have hjl := @joinSep_getLast? [' '] _ _ hv hvw.1
    rw [normalize, hq, hjl]
    obtain ⟨a, ha⟩ : ∃ a, v.getLast? = some a := by
      rcases hg : v.getLast? with _ | a
      · rw [List.getLast?_eq_none_iff] at hg
        exact absurd hg hvw.1
      · exact ⟨a, rfl⟩
    exact ⟨a, ha, hvw.2 a (getLast?_mem ha)⟩

lemma splitOn2_ne_nil (s : List Char) : splitOn2 s ≠ [] := by
  induction s using splitOn2.induct with
  | case1 => simp [splitOn2]
  | case2 c => simp [splitOn2]
  | case3 c d rest h ih =>
    rw [splitOn2, if_pos h]
    simp
  | case4 c d rest h hnil ih => exact absurd hnil ih
  | case5 c d rest h x xs hx ih =>
    rw [splitOn2, if_neg h, hx]
    simp

lemma exists_piece : ∀ (s : List Char),
    (∃ c, s.getLast? = some c ∧ isWs c = false) →
    ∃ p ∈ splitOn2 s, trim p ≠ [] := by
  intro s
  induction s using splitOn2.induct with
  | case1 =>
    rintro ⟨c, hc, _⟩
    rw [List.getLast?_eq_none_iff.mpr rfl] at hc
    cases hc
  | case2 c =>
    rintro ⟨e, he, hw⟩
    have hec : e = c := by
      rw [List.getLast?_singleton] at he
      injection he with he
      exact he.symm
    subst hec
    refine ⟨[e], by simp [splitOn2], ?_⟩
    exact trim_ne_of_hasNonWs ⟨e, by simp, hw⟩
  | case3 c d rest hsep ih =>
    rintro ⟨e, he, hw⟩
    obtain ⟨hc, hd⟩ := hsep
    subst hc
    subst hd
    rcases rest with _ | ⟨f, rest'⟩
    · rw [List.getLast?_cons_cons, List.getLast?_singleton] at he
      injection he with he
      rw [← he] at hw
      exact absurd hw (by decide)
    · rw [List.getLast?_cons_cons] at he
      obtain ⟨p, hp, ht⟩ := ih ⟨e, he, hw⟩
      refine ⟨p, ?_, ht⟩
      rw [splitOn2, if_pos ⟨rfl, rfl⟩]
      exact List.mem_cons_of_mem _ hp
  | case4 c d rest h hnil ih =>
    intro _
    exact absurd hnil (splitOn2_ne_nil _)
  | case5 c d rest h x xs hx ih =>
    rintro ⟨e, he, hw⟩
    rw [List.getLast?_cons_cons] at he
    obtain ⟨p, hp, ht⟩ := ih ⟨e, he, hw⟩
    have hout : splitOn2 (c :: d :: rest) = (c :: x) :: xs := by
      rw [splitOn2, if_neg h, hx]
    rw [hx] at hp
    rcases List.mem_cons.mp hp with h1 | h1
    · subst h1
      refine ⟨c :: p, by rw [hout]; simp, ?_⟩
      apply trim_ne_of_hasNonWs
      obtain ⟨ch, hch, hchw⟩ := hasNonWs_of_trim_ne ht
      exact ⟨ch, List.mem_cons_of_mem _ hch, hchw⟩
    · refine ⟨p, ?_, ht⟩
      rw [hout]
      exact List.mem_cons_of_mem _ h1

lemma chunkFold_sound (m : Nat) (S : List (List Char))
    (hS : ∀ x ∈ S, trim x = x) :
    ∀ (sents current chunks : List (List Char)),
      (∀ s ∈ sents, trim s ∈ S) →
      (current = [] ∨ (trim (joinSep sepDS current)).length ≤ m ∨
        ∃ x ∈ S, current = [x]) →
      (∀ c ∈ chunks, c.length ≤ m ∨ c ∈ S) →
      ∀ c ∈ chunkFold m current chunks sents, c.length ≤ m ∨ c ∈ S := by
  intro sents
  induction sents with
  | nil =>
    intro current chunks _ hInv hChunks c hc
    by_cases hcur : current = []
    · rw [chunkFold, if_pos hcur] at hc
      exact hChunks c hc
    · rw [chunkFold, if_neg hcur] at hc
      rcases List.mem_append.mp hc with h | h
      · exact hChunks c h
      · have hceq : c = trim (joinSep sepDS current) := by simpa using h
        subst hceq
        rcases hInv with h1 | h1 | ⟨x, hxS, hxe⟩
        · exact absurd h1 hcur
        · exact Or.inl h1
        · subst hxe
          right
          rw [show joinSep sepDS [x] = x from rfl, hS x hxS]
          exact hxS
  | cons s rest ih =>
    intro current chunks hs hInv hChunks c hc
    have hrest : ∀ s' ∈ rest, trim s' ∈ S :=
      fun s' hs' => hs s' (List.mem_cons_of_mem _ hs')
    by_cases h1 : trim s = []
    · rw [chunkFold, if_pos h1] at hc
      exact ih current chunks hrest hInv hChunks c hc
    · by_cases h2 : (trim (joinSep sepDS (current ++ [trim s]))).length ≤ m
      · rw [chunkFold, if_neg h1, if_pos h2] at hc
        exact ih _ chunks hrest (Or.inr (Or.inl h2)) hChunks c hc
      · by_cases h3 : current = []
        · rw [chunkFold, if_neg h1, if_neg h2, if_pos h3] at hc
          refine ih _ chunks hrest ?_ hChunks c hc
          exact Or.inr (Or.inr ⟨trim s, hs s (List.mem_cons_self s rest), rfl⟩)
        · rw [chunkFold, if_neg h1, if_neg h2, if_neg h3] at hc
          refine ih _ _ hrest ?_ ?_ c hc
          · exact Or.inr (Or.inr ⟨trim s, hs s (List.mem_cons_self s rest), rfl⟩)
          · intro c' hc'
            rcases List.mem_append.mp hc' with h | h
            · exact hChunks c' h
            · have hceq : c' = trim (joinSep sepDS current) := by simpa using h
              subst hceq
              rcases hInv with hI | hI | ⟨x, hxS, hxe⟩
              · exact absurd hI h3
              · exact Or.inl hI
              · subst hxe
                right
                rw [show joinSep sepDS [x] = x from rfl, hS x hxS]
                exact hxS

lemma chunkFold_pieces (m : Nat) :
    ∀ (sents current chunks : List (List Char)),
      (∀ x ∈ current, x ≠ [] ∧ startsNonWs x = true) →
      (∀ c ∈ chunks, c ≠ [] ∧ startsNonWs c = true) →
      ∀ c ∈ chunkFold m current chunks sents,
        c ≠ [] ∧ startsNonWs c = true := by
  intro sents
  have hflush : ∀ current : List (List Char), current ≠ [] →
      (∀ x ∈ current, x ≠ [] ∧ startsNonWs x = true) →
      trim (joinSep sepDS current) ≠ [] ∧
        startsNonWs (trim (joinSep sepDS current)) = true := by
    intro current hne hcur
    rcases current with _ | ⟨x, r⟩
    · exact absurd rfl hne
    · have hx := hcur x (List.mem_cons_self x r)
      obtain ⟨ch, hch, hchw⟩ := startsNonWs_head_mem hx.2
      have hmem : ch ∈ joinSep sepDS (x :: r) :=
        mem_joinSep (List.mem_cons_self x r) hch
      have ht : trim (joinSep sepDS (x :: r)) ≠ [] :=
        trim_ne_of_hasNonWs ⟨ch, hmem, hchw⟩
      exact ⟨ht, startsNonWs_trim ht⟩
  induction sents with
  | nil =>
    intro current chunks hcur hChunks c hc
    by_cases hc0 : current = []
    · rw [chunkFold, if_pos hc0] at hc
      exact hChunks c hc
    · rw [chunkFold, if_neg hc0] at hc
      rcases List.mem_append.mp hc with h | h
      · exact hChunks c h
      · have hceq : c = trim (joinSep sepDS current) := by simpa using h
        subst hceq
        exact hflush current hc0 hcur
  | cons s rest ih =>
    intro current chunks hcur hChunks c hc
    by_cases h1 : trim s = []
    · rw [chunkFold, if_pos h1] at hc
      exact ih current chunks hcur hChunks c hc
    · have hsent : ∀ x ∈ [trim s], x ≠ [] ∧ startsNonWs x = true := by
        intro x hx
        have hxe : x = trim s := by simpa using hx
        subst hxe
        exact ⟨h1, startsNonWs_trim h1⟩
      by_cases h2 : (trim (joinSep sepDS (current ++ [trim s]))).length ≤ m
      · rw [chunkFold, if_neg h1, if_pos h2] at hc
        refine ih _ chunks ?_ hChunks c hc
        intro x hx
        rcases List.mem_append.mp hx with h | h
        · exact hcur x h
        · exact hsent x h
      · by_cases h3 : current = []
        · rw [chunkFold, if_neg h1, if_neg h2, if_pos h3] at hc
          exact ih _ chunks hsent hChunks c hc
        · rw [chunkFold, if_neg h1, if_neg h2, if_neg h3] at hc
          refine ih _ _ hsent ?_ c hc
          intro c' hc'
          rcases List.mem_append.mp hc' with h | h
          · exact hChunks c' h
          · have hceq : c' = trim (joinSep sepDS current) := by simpa using h
            subst hceq
            exact hflush current h3 hcur

lemma chunkFold_ne (m : Nat) :
    ∀ (sents current chunks : List (List Char)),
      (current ≠ [] ∨ ∃ s ∈ sents, trim s ≠ []) →
      chunkFold m current chunks sents ≠ [] := by
  intro sents
  induction sents with
  | nil =>
    intro current chunks h
    rcases h with h | ⟨s, hs, _⟩
    · rw [chunkFold, if_neg h]
      simp
    · cases hs
  | cons s rest ih =>
    intro current chunks h
    by_cases h1 : trim s = []
    · rw [chunkFold, if_pos h1]
      apply ih
      rcases h with h | ⟨s', hs', ht⟩
      · exact Or.inl h
      · rcases List.mem_cons.mp hs' with hq | hq
        · subst hq
          exact absurd h1 ht
        · exact Or.inr ⟨s', hq, ht⟩
    · by_cases h2 : (trim (joinSep sepDS (current ++ [trim s]))).length ≤ m
      · rw [chunkFold, if_neg h1, if_pos h2]
        apply ih
        left
        simp
      · by_cases h3 : current = []
        · rw [chunkFold, if_neg h1, if_neg h2, if_pos h3]
          apply ih
          left
          simp
        · rw [chunkFold, if_neg h1, if_neg h2, if_neg h3]
          apply ih
          left
          simp

lemma chunk_text_sound (T : List Char) (m : Nat) :
    ∀ c ∈ chunk_text T m,
      c.length ≤ m ∨ c ∈ (splitOn2 (normalize T)).map trim := by
  intro c hc
  simp only [chunk_text] at hc
  by_cases h : (normalize T).length ≤ m
  · rw [if_pos h] at hc
    have hce : c = normalize T := by simpa using hc
    subst hce
    exact Or.inl h
  · rw [if_neg h] at hc
    refine chunkFold_sound m _ ?_ _ [] [] ?_ (Or.inl rfl)
      (by intro c' hc'; cases hc') c hc
    · intro x hx
      rw [List.mem_map] at hx
      obtain ⟨y, _, hxy⟩ := hx
      rw [← hxy]
      exact trim_idem
    · intro s hs
      exact List.mem_map_of_mem trim hs

lemma chunk_text_pieces (T : List Char) (m : Nat) (hT : normalize T ≠ []) :
    ∀ c ∈ chunk_text T m, c ≠ [] ∧ startsNonWs c = true := by
  intro c hc
  simp only [chunk_text] at hc
  by_cases h : (normalize T).length ≤ m
  · rw [if_pos h] at hc
    have hce : c = normalize T := by simpa using hc
    subst hce
    exact ⟨hT, startsNonWs_normalize hT⟩
  · rw [if_neg h] at hc
    exact chunkFold_pieces m _ [] [] (by intro x hx; cases hx)
      (by intro c' hc'; cases hc') c hc

lemma chunk_text_ne (T : List Char) (m : Nat) (hT : normalize T ≠ []) :
    chunk_text T m ≠ [] := by
  simp only [chunk_text]
  by_cases h : (normalize T).length ≤ m
  · rw [if_pos h]
    simp
  · rw [if_neg h]
    apply chunkFold_ne
    right
    exact exists_piece _ (normalize_getLast?_nonWs hT)

lemma filter_filter_of_imp {α : Type} (p q : α → Bool)
    (h : ∀ a, p a = true → q a = true) (l : List α) :
    (l.filter q).filter p = l.filter p := by
  induction l with
  | nil => rfl
  | cons a l ih =>
    by_cases hq : q a = true
    · rw [List.filter_cons_of_pos hq]
      by_cases hp : p a = true
      · rw [List.filter_cons_of_pos hp, List.filter_cons_of_pos hp, ih]
      · rw [List.filter_cons_of_neg (by simpa using hp),
          List.filter_cons_of_neg (by simpa using hp), ih]
    · have hp : p a = false := by
        cases hz : p a
        · rfl
        · exact absurd (h a hz) hq
      rw [List.filter_cons_of_neg (by simp [hq]),
        List.filter_cons_of_neg (by simp [hp]), ih]

/-- Claim C3: for every input string T whose whitespace-normalized form has
length at most 400, `summarize_text` returns exactly that normalized form,
for every engine state — the engine never affects the result. -/
theorem summarize_short_identity (eng : Option Engine) (T : List Char)
    (h : (normalize T).length ≤ 400) :
    summarize_text eng T = normalize T := by
  by_cases hT : T = []
  · subst hT
    rfl
  · simp only [summarize_text, if_neg hT, if_pos h]

/-- Witness for C3 at a concrete short input. -/
theorem summarize_short_identity_witness :
    summarize_text none ("hi there".toList) = normalize ("hi there".toList) :=
  summarize_short_identity none ("hi there".toList) (by decide)

/-- Claim C10: for every input whose whitespace-normalized form has length at
most 400 (the empty string included), `summarize_text` returns without
touching the lazily-initialized engine cell: the cell state is returned
unchanged, whatever it was and whatever loading would produce. -/
theorem summarize_short_keeps_state (load : Option Engine)
    (st : Option (Option Engine)) (T : List Char)
    (h : (normalize T).length ≤ 400) :
    (summarize_text_st load st T).2 = st := by
  by_cases hT : T = []
  · subst hT
    rfl
  · simp only [summarize_text_st, if_neg hT, if_pos h]

/-- Witness for C10 at the empty string and at a short non-empty string,
with an uninitialized cell. -/
theorem summarize_short_keeps_state_witness :
    (summarize_text_st none none []).2 = none
    ∧ (summarize_text_st none none ("short text".toList)).2 = none :=
  ⟨summarize_short_keeps_state none none [] (by decide),
   summarize_short_keeps_state none none ("short text".toList) (by decide)⟩

/-- Counterexample to claim C4 as stated: on the empty input (and likewise on
any whitespace-only input) `_chunk_text` returns the single-element sequence
containing the empty string, so not every returned chunk is non-empty. -/
theorem chunk_text_empty_cex :
    chunk_text [] 700 = [[]] ∧ ¬ (∀ c ∈ chunk_text [] 700, c ≠ []) := by
  constructor
  · rfl
  · intro h
    exact h [] (by simp [show chunk_text [] 700 = [[]] from rfl]) rfl

/-- Claim C4 (amended): chunks are non-empty provided the normalized text is
non-empty; every chunk either fits in `maxChars` or is a single (stripped)
sentence of the normalized text (the oversized-sentence exception); and when
the normalized text already fits, the result is exactly that one chunk. -/
theorem chunk_text_spec (T : List Char) (m : Nat) :
    ((normalize T).length ≤ m → chunk_text T m = [normalize T])
    ∧ (normalize T ≠ [] → ∀ c ∈ chunk_text T m, c ≠ [])
    ∧ (∀ c ∈ chunk_text T m,
        c.length ≤ m ∨ c ∈ (splitOn2 (normalize T)).map trim) := by
  refine ⟨?_, ?_, ?_⟩
  · intro h
    simp only [chunk_text, if_pos h]
  · intro hT c hc
    exact (chunk_text_pieces T m hT c hc).1
  · exact chunk_text_sound T m

/-- Witness for C4 at a concrete input: the short-text branch returns the
whole normalized text as the single chunk. -/
theorem chunk_text_spec_witness :
    chunk_text ("one. two".toList) 700 = [normalize ("one. two".toList)] :=
  (chunk_text_spec ("one. two".toList) 700).1 (by decide)

/-- Claim C8: `fetch_html` yields a document exactly when the transport
delivered a response with status 200, in which case the document is that
response body; a transport error or any non-200 status surfaces as `none`
(the embedding is a total function: nothing propagates past the boundary). -/
theorem fetch_html_success (resp : Except (List Char) HttpResponse) :
    ((∃ body, fetch_html resp = some body) ↔
      (∃ r, resp = Except.ok r ∧ r.status = 200))
    ∧ (∀ r, resp = Except.ok r → r.status = 200 →
        fetch_html resp = some r.text) := by
  constructor
  · constructor
    · rintro ⟨b, hb⟩
      cases resp with
      | error e => cases hb
      | ok r =>
        by_cases h : r.status = 200
        · exact ⟨r, rfl, h⟩
        · rw [fetch_html, if_neg h] at hb
          cases hb
    · rintro ⟨r, rfl, h⟩
      exact ⟨r.text, by rw [fetch_html, if_pos h]⟩
  · rintro r rfl h
    rw [fetch_html, if_pos h]

/-- Witness for C8: a 200 response yields its body. -/
theorem fetch_html_success_witness :
    fetch_html (Except.ok ⟨200, "body".toList⟩) = some ("body".toList) :=
  (fetch_html_success (Except.ok ⟨200, "body".toList⟩)).2
    ⟨200, "body".toList⟩ rfl rfl

/-- Claim C9: when the `limit` parameter is absent, empty, or fails to parse
as a Python integer, the `/news` endpoint uses `MAX_ARTICLES = 50`. -/
theorem news_limit_defaults (p : Option (List Char))
    (h : p = none ∨ ∃ s, p = some s ∧ pyInt s = none) :
    get_news_limit p = 50 := by
  rcases h with h | ⟨s, hp, hs⟩
  · subst h
    rfl
  · subst hp
    simp only [get_news_limit]
    by_cases he : s = []
    · rw [if_pos he]
      rfl
    · rw [if_neg he, hs]
      rfl

/-- Witness for C9: absent parameter and a non-numeric parameter both give
limit 50. -/
theorem news_limit_defaults_witness :
    get_news_limit none = 50 ∧ get_news_limit (some ("abc".toList)) = 50 :=
  ⟨news_limit_defaults none (Or.inl rfl),
   news_limit_defaults (some ("abc".toList))
     (Or.inr ⟨"abc".toList, rfl, by decide⟩)⟩

/-- Claim C5: when the extractable body text of a fetched document is shorter
than 50 characters (in particular when there is none at all), every adapter's
extraction returns `none` — no record with such a body is constructed.  Stated
for the Geo extractor and for the shared BBC/ARY/Samaa/Dawn extractor shape at
every source tag. -/
theorem extract_rejects_short (eng : Option Engine) (url : List Char)
    (src : Source) (gd : GeoDoc) (sd : StdDoc)
    (hg : (geoBody gd).length < 50) (hs : (stdBody sd).length < 50) :
    process_geo_article eng url (some gd) = none
    ∧ process_std_article src eng url (some sd) = none := by
  constructor
  · simp only [process_geo_article]
    rw [if_pos (Or.inr hg)]
  · simp only [process_std_article]
    rw [if_pos (Or.inr hs)]

/-- Witness for C5: a document with a 4-character body (and one with no body
at all) is rejected by both extractor shapes. -/
theorem extract_rejects_short_witness :
    process_geo_article none ("u".toList)
      (some ⟨none, none, none, none, "tiny".toList, []⟩) = none
    ∧ process_std_article Source.bbc none ("u".toList)
      (some ⟨none, none, [], []⟩) = none :=
  extract_rejects_short none ("u".toList) Source.bbc
    ⟨none, none, none, none, "tiny".toList, []⟩
    ⟨none, none, [], []⟩ (by decide) (by decide)

/-- Claim C6: `save_headline` upserts by url: after saving, exactly one stored
row carries that url and it holds the headline's field values; saving the same
record again changes nothing; rows with any other url are untouched. -/
theorem save_headline_upsert (db : List Row) (h : Headline) (u : List Char)
    (hu : h.url = some u) :
    (save_headline (save_headline db h) h = save_headline db h)
    ∧ ((save_headline db h).filter (fun r => r.url = u) = [mkRow h u])
    ∧ (∀ v, v ≠ u →
        (save_headline db h).filter (fun r => r.url = v) =
          db.filter (fun r => r.url = v)) := by
  have hsave : ∀ d : List Row, save_headline d h =
      d.filter (fun r => ¬ (r.url = u)) ++ [mkRow h u] := by
    intro d
    simp only [save_headline, hu]
  have hrowu : (mkRow h u).url = u := rfl
  refine ⟨?_, ?_, ?_⟩
  · rw [hsave, hsave, List.filter_append]
    rw [filter_filter_of_imp _ _ (fun a ha => ha) db]
    have hlast : List.filter (fun r => ¬ (r.url = u)) [mkRow h u] = [] := by
      simp [hrowu]
    rw [hlast, List.append_nil]
  · rw [hsave, List.filter_append]
    have h1 : (db.filter (fun r => ¬ (r.url = u))).filter
        (fun r => r.url = u) = [] := by
      rw [List.filter_eq_nil_iff]
      intro a ha
      have hmem := List.of_mem_filter ha
      simp at hmem
      simp [hmem]
    have h2 : List.filter (fun r => r.url = u) [mkRow h u] = [mkRow h u] := by
      simp [hrowu]
    rw [h1, h2, List.nil_append]
  · intro v hv
    rw [hsave, List.filter_append]
    have h1 : List.filter (fun r => r.url = v) [mkRow h u] = [] := by
      simp [hrowu]
      intro hq
      exact hv hq.symm
    rw [h1, List.append_nil]
    apply filter_filter_of_imp
    intro a ha
    simp at ha ⊢
    rw [ha]
    intro hq
    exact absurd hq hv

/-- Witness for C6 on a concrete database: saving a headline twice leaves one
row for its url, with the latest fields. -/
theorem save_headline_upsert_witness :
    (save_headline
        (save_headline [] ⟨some ("a".toList), none, none, none, none⟩)
        ⟨some ("a".toList), none, none, none, none⟩ =
      save_headline [] ⟨some ("a".toList), none, none, none, none⟩)
    ∧ ((save_headline [] ⟨some ("a".toList), none, none, none, none⟩).filter
        (fun r => r.url = "a".toList) =
      [mkRow ⟨some ("a".toList), none, none, none, none⟩ ("a".toList)]) :=
  ⟨(save_headline_upsert [] ⟨some ("a".toList), none, none, none, none⟩
      ("a".toList) rfl).1,
   (save_headline_upsert [] ⟨some ("a".toList), none, none, none, none⟩
      ("a".toList) rfl).2.1⟩

/-- Claim C7: the `/search` endpoint rejects a missing/empty query and an
unknown source selector with a 400, in both cases without invoking any
adapter and without touching the database. -/
theorem search_request_validation (A : Adapters) (db : List Row)
    (req : SearchReq) :
    (trim (req.query.getD []) = [] → search_news A db req = (400, [], db))
    ∧ (lowerStr (req.source.getD ("all".toList)) ∉ knownSelectors →
        search_news A db req = (400, [], db)) := by
  constructor
  · intro h
    simp only [search_news]
    rw [if_pos h]
  · intro h
    have h1 : ¬ (lowerStr (req.source.getD ("all".toList)) = "geo".toList) :=
      fun hx => h (by rw [hx]; simp [knownSelectors])
    have h2 : ¬ (lowerStr (req.source.getD ("all".toList)) = "bbc".toList) :=
      fun hx => h (by rw [hx]; simp [knownSelectors])
    have h3 : ¬ (lowerStr (req.source.getD ("all".toList)) = "ary".toList) :=
      fun hx => h (by rw [hx]; simp [knownSelectors])
    have h4 : ¬ (lowerStr (req.source.getD ("all".toList)) = "samaa".toList) :=
      fun hx => h (by rw [hx]; simp [knownSelectors])
    have h5 : ¬ (lowerStr (req.source.getD ("all".toList)) = "dawn".toList) :=
      fun hx => h (by rw [hx]; simp [knownSelectors])
    have h6 : ¬ (lowerStr (req.source.getD ("all".toList)) = "all".toList) :=
      fun hx => h (by rw [hx]; simp [knownSelectors])
    simp only [search_news]
    by_cases hq : trim (req.query.getD []) = []
    · rw [if_pos hq]
    · rw [if_neg hq, if_neg h1, if_neg h2, if_neg h3, if_neg h4, if_neg h5,
        if_neg h6]

/-- Adapters that always succeed with no results; used only to witness
endpoint-level statements at a concrete input. -/
def okAdapters : Adapters :=
  { geo := fun _ => Except.ok []
  , bbc := fun _ => Except.ok []
  , ary := fun _ => Except.ok []
  , samaa := fun _ => Except.ok []
  , dawn := fun _ => Except.ok [] }

/-- Witness for C7: a request with no query, and a request with an unknown
source selector, both get a 400 with no adapter invoked. -/
theorem search_request_validation_witness :
    search_news okAdapters [] { query := none, source := none } =
      (400, [], [])
    ∧ search_news okAdapters []
        { query := some ("floods".toList),
          source := some ("unknownsource".toList) } = (400, [], []) :=
  ⟨(search_request_validation okAdapters []
      { query := none, source := none }).1 (by decide),
   (search_request_validation okAdapters []
      { query := some ("floods".toList),
        source := some ("unknownsource".toList) }).2 (by decide)⟩

/-- A record used in the C1 counterexample: a result the BBC adapter would
return. -/
def bbcCexRec : Rec :=
  { source := Source.bbc, url := "u".toList, picture := none,
    heading := "h".toList, blog := "b".toList }

/-- Adapters for the C1 counterexample: the Geo search raises, the BBC search
would return one record, the rest would return empty lists. -/
def cexAdapters : Adapters :=
  { geo := fun _ => Except.error ("boom".toList)
  , bbc := fun _ => Except.ok [bbcCexRec]
  , ary := fun _ => Except.ok []
  , samaa := fun _ => Except.ok []
  , dawn := fun _ => Except.ok [] }

/-- Counterexample to claim C1 as stated: when the Geo adapter's search
raises, `search_all_sources` does not catch the failure — it propagates the
exception, no later adapter is invoked (the invocation trace stops at Geo),
the BBC record is not returned, and the `/search` endpoint answers 500 with
the database unchanged rather than returning the remaining adapters'
results. -/
theorem search_all_error_cex :
    (search_all_sources cexAdapters ("q".toList)).1 =
      Except.error ("boom".toList)
    ∧ (search_all_sources cexAdapters ("q".toList)).2 = [Source.geo]
    ∧ search_news cexAdapters []
        { query := some ("q".toList), source := some ("all".toList) } =
      (500, [Source.geo], []) :=
  ⟨rfl, rfl, rfl⟩

/-- Claim C1 (amended): `search_all_sources` runs the five adapter searches
sequentially with no error handling between them: if one raises while the
earlier ones succeeded, the exception propagates immediately — earlier
results are discarded, later adapters are never invoked — and the `/search`
endpoint catches it and answers 500, leaving the database unchanged.  Only
when all five succeed are the concatenated results returned. -/
theorem search_all_error_propagates (A : Adapters) (q e : List Char) :
    (A.geo q = Except.error e →
      search_all_sources A q = (Except.error e, [Source.geo]))
    ∧ (∀ g, A.geo q = Except.ok g → A.bbc q = Except.error e →
        search_all_sources A q = (Except.error e, [Source.geo, Source.bbc]))
    ∧ (∀ g b, A.geo q = Except.ok g → A.bbc q = Except.ok b →
        A.ary q = Except.error e →
        search_all_sources A q =
          (Except.error e, [Source.geo, Source.bbc, Source.ary]))
    ∧ (∀ g b a, A.geo q = Except.ok g → A.bbc q = Except.ok b →
        A.ary q = Except.ok a → A.samaa q = Except.error e →
        search_all_sources A q =
          (Except.error e, [Source.geo, Source.bbc, Source.ary, Source.samaa]))
    ∧ (∀ g b a s, A.geo q = Except.ok g → A.bbc q = Except.ok b →
        A.ary q = Except.ok a → A.samaa q = Except.ok s →
        A.dawn q = Except.error e →
        search_all_sources A q =
          (Except.error e,
           [Source.geo, Source.bbc, Source.ary, Source.samaa, Source.dawn]))
    ∧ (∀ g b a s d, A.geo q = Except.ok g → A.bbc q = Except.ok b →
        A.ary q = Except.ok a → A.samaa q = Except.ok s →
        A.dawn q = Except.ok d →
        search_all_sources A q =
          (Except.ok (g ++ b ++ a ++ s ++ d),
           [Source.geo, Source.bbc, Source.ary, Source.samaa, Source.dawn]))
    ∧ (∀ db query, trim query ≠ [] → A.geo (trim query) = Except.error e →
        search_news A db { query := some query, source := some ("all".toList) }
          = (500, [Source.geo], db)) := by
  refine ⟨?_, ?_, ?_, ?_, ?_, ?_, ?_⟩
  · intro hg
    rw [search_all_sources, hg]
  · intro g hg hb
    rw [search_all_sources, hg, hb]
  · intro g b hg hb ha
    rw [search_all_sources, hg, hb, ha]
  · intro g b a hg hb ha hs
    rw [search_all_sources, hg, hb, ha, hs]
  · intro g b a s hg hb ha hs hd
    rw [search_all_sources, hg, hb, ha, hs, hd]
  · intro g b a s d hg hb ha hs hd
    rw [search_all_sources, hg, hb, ha, hs, hd]
  · intro db query hq hg
    simp only [search_news, Option.getD_some]
    rw [if_neg hq]
    have hall : lowerStr ("all".toList) = "all".toList := by decide
    rw [hall]
    rw [if_neg (by decide : ¬ ("all".toList = "geo".toList)),
      if_neg (by decide : ¬ ("all".toList = "bbc".toList)),
      if_neg (by decide : ¬ ("all".toList = "ary".toList)),
      if_neg (by decide : ¬ ("all".toList = "samaa".toList)),
      if_neg (by decide : ¬ ("all".toList = "dawn".toList)),
      if_pos (rfl : "all".toList = "all".toList)]
    rw [search_all_sources, hg]

/-- Witness for C1 (amended) at the counterexample adapters: the Geo failure
propagates and the endpoint answers 500. -/
theorem search_all_error_propagates_witness :
    search_all_sources cexAdapters ("q".toList) =
      (Except.error ("boom".toList), [Source.geo])
    ∧ search_news cexAdapters []
        { query := some ("q".toList), source := some ("all".toList) } =
      (500, [Source.geo], []) :=
  ⟨(search_all_error_propagates cexAdapters ("q".toList) ("boom".toList)).1
      rfl,
   (search_all_error_propagates cexAdapters ("q".toList)
      ("boom".toList)).2.2.2.2.2.2 [] ("q".toList) (by decide) rfl⟩

/-- Counterexample to claim C2 as stated: a whitespace-only input is a
non-empty string, yet `summarize_text` returns the empty string (the
whitespace-normalized form), engine or no engine. -/
theorem summarize_whitespace_cex :
    summarize_text none [' '] = [] ∧ ([' '] : List Char) ≠ [] := by
  constructor
  · rfl
  · simp

/-- Claim C2 (amended): `summarize_text` always runs to completion and
returns some string (it is a total function, mirroring the catch-all
handlers), and the returned string is non-empty whenever the
whitespace-normalized form of the input is non-empty, provided every
successful engine invocation returns a string that is non-empty after
stripping (in particular whenever the engine is unavailable). -/
theorem summarize_nonempty (eng : Option Engine) (T : List Char)
    (hT : normalize T ≠ [])
    (he : ∀ f, eng = some f → ∀ c a b s, f c a b = Except.ok s →
      trim s ≠ []) :
    summarize_text eng T ≠ [] := by
  have hT0 : T ≠ [] := fun h => hT (by rw [h]; rfl)
  simp only [summarize_text, if_neg hT0]
  by_cases hlen : (normalize T).length ≤ 400
  · rw [if_pos hlen]
    exact hT
  · rw [if_neg hlen]
    cases eng with
    | none =>
      simp only [summarizeCore, truncateWithEllipsis]
      by_cases h8 : (normalize T).length > 800
      · rw [if_pos h8]
        simp
      · rw [if_neg h8]
        exact hT
    | some f =>
      simp only [summarizeCore, enginePath]
      have hcomb : combinedOf f (normalize T) ≠ [] := by
        have htx : normalize (normalize T) ≠ [] :=
          normalize_ne_of_hasNonWs (hasNonWs_normalize hT)
        have hchne := chunk_text_ne (normalize T) 700 htx
        have hchp := chunk_text_pieces (normalize T) 700 htx
        rcases hc : chunk_text (normalize T) 700 with _ | ⟨c0, rest⟩
        · exact absurd hc hchne
        · have hc0 := hchp c0 (by rw [hc]; simp)
          have hpart : ∃ ch ∈ chunkPart f c0, isWs ch = false := by
            cases hfc : f c0 120 40 with
            | ok s =>
              have hts := he f rfl c0 120 40 s hfc
              have hmem := startsNonWs_head_mem (startsNonWs_trim hts)
              rw [chunkPart, hfc]
              exact hmem
            | error e =>
              obtain ⟨ch, c0', hx⟩ := List.exists_cons_of_ne_nil hc0.1
              have hw : isWs ch = false := by
                have hsn := hc0.2
                rw [hx] at hsn
                simpa [startsNonWs] using hsn
              rw [chunkPart, hfc, hx]
              refine ⟨ch, ?_, hw⟩
              show ch ∈ (ch :: c0').take 300
              rw [show (300 : Nat) = 299 + 1 from rfl, List.take_succ_cons]
              exact List.mem_cons_self _ _
          obtain ⟨ch, hch, hw⟩ := hpart
          rw [combinedOf, hc]
          apply normalize_ne_of_hasNonWs
          refine ⟨ch, ?_, hw⟩
          rw [List.map_cons]
          exact mem_joinSep (List.mem_cons_self _ _) hch
      by_cases h5 : (combinedOf f (normalize T)).length ≤ 500
      · rw [if_pos h5]
        exact hcomb
      · rw [if_neg h5]
        cases hfc : f (combinedOf f (normalize T)) 150 50 with
        | ok s => exact he f rfl _ _ _ _ hfc
        | error e =>
          simp only [truncateWithEllipsis]
          by_cases h8 : (combinedOf f (normalize T)).length > 800
          · rw [if_pos h8]
            simp
          · rw [if_neg h8]
            exact hcomb

/-- Witness for C2 (amended): a non-whitespace input with no engine yields a
non-empty summary. -/
theorem summarize_nonempty_witness :
    summarize_text none ("x".toList) ≠ [] :=
  summarize_nonempty none ("x".toList) (by decide)
    (fun f hf => Option.noConfusion hf)

end Realify
